import Mathlib

/-!
Verification of the AFCOTEC mini-API counter service (src/server.py) against its
natural-language specification.

The embedding models the relational store directly: the counters table is an
association list keyed by the document-type string (its PRIMARY KEY), the
clients table is a list of rows plus the autoincrement cursor.  Pure helpers
(formatted_number, the DATABASE_URL normalization) are translated as pure
functions; the allocation endpoint is translated as a transaction with buffered
writes that are applied only at commit, so that rollback semantics are explicit.
-/

namespace Afcotec

/-! ### Decimal rendering (Python str and format) -/

/-- Character of a single decimal digit d, for d < 10. -/
def digitChar (d : Nat) : Char := Char.ofNat (48 + d)

/-- Decimal digits of n, most significant first.  Fuel-based so that the kernel can
evaluate it; natChars (n+1) n always has enough fuel. -/
def natChars : Nat → Nat → List Char
  | 0, _ => []
  | f + 1, n => if n < 10 then [digitChar n] else natChars f (n / 10) ++ [digitChar (n % 10)]

/-- Decimal rendering of a natural number, as Python str produces it. -/
def natToString (n : Nat) : String := ⟨natChars (n + 1) n⟩

/-- Decimal rendering of an integer, as Python str(int) produces it. -/
def intToString (n : Int) : String :=
  if n < 0 then "-" ++ natToString (-n).toNat else natToString n.toNat

/-- Numeric value of a list of decimal digit characters, used to show that the
decimal rendering is injective. -/
def digitsVal (l : List Char) : Nat := l.foldl (fun a c => a * 10 + (c.toNat - 48)) 0

/-- Python format(n, "0" ++ str(p) ++ "d") for n ≥ 0, p ≥ 0: the decimal digits of n
left-padded with zeros to width p. -/
def zeroPadNat (n p : Nat) : String :=
  let s := natToString n
  if p ≤ s.length then s else ⟨List.replicate (p - s.length) '0'⟩ ++ s

/-! ### formatted_number (src/server.py lines 112-117) -/

/-- Embeds formatted_number.  The source tests the truthiness of padding (padding ≠ 0)
and next_val >= 0 before using the padded format.  For padding < 0 with next_val ≥ 0
the Python format specifier becomes invalid (for example "0-1d") and the interpreter
raises ValueError; that exception is modelled as none.  The column named prefix in
the source is called pfx here because the word is a Lean keyword. -/
def formatted_number (next_val : Int) (pfx : String) (padding : Int) : Option String :=
  if padding ≠ 0 ∧ 0 ≤ next_val then
    if 0 < padding then some (pfx ++ zeroPadNat next_val.toNat padding.toNat)
    else none
  else some (pfx ++ intToString next_val)

/-- zero_pad exactly as the specification words it (spec section 4.1, step 4):
left-pad with zeros to width p when p > 0 and n ≥ 0, otherwise render n with no
padding. -/
def zero_pad_spec (n p : Int) : String :=
  if 0 < p ∧ 0 ≤ n then zeroPadNat n.toNat p.toNat else intToString n

/-! ### The counters table (src/server.py lines 34-39) -/

/-- One row of the counters table.  type is the primary key and lives in the
association list; the column named prefix in the source is called pfx here. -/
structure CounterRow where
  next : Int
  pfx : String
  padding : Int
  deriving DecidableEq, Repr

/-- The counters table: an association list from the primary key type to the row.
type is a PRIMARY KEY, so reachable tables bind each key at most once; all
operations act on the first binding. -/
abbrev CounterDB := List (String × CounterRow)

/-- SELECT ... FROM counters WHERE type = t : the first binding of t. -/
def findCounter (db : CounterDB) (t : String) : Option CounterRow :=
  match db.find? (fun e => e.1 == t) with
  | some e => some e.2
  | none => none

/-- Row upsert keyed by t: replaces the first binding of t, appends when absent.
This is INSERT ... ON CONFLICT (type) DO UPDATE in set_counter, and plain INSERT in
take_next_number (where it only runs when no binding exists). -/
def dbSet (db : CounterDB) (t : String) (r : CounterRow) : CounterDB :=
  match db with
  | [] => [(t, r)]
  | e :: rest => if e.1 == t then (t, r) :: rest else e :: dbSet rest t r

/-- UPDATE counters SET next = n WHERE type = t. -/
def dbSetNext (db : CounterDB) (t : String) (n : Int) : CounterDB :=
  match db with
  | [] => []
  | e :: rest =>
    if e.1 == t then (e.1, { e.2 with next := n }) :: rest else e :: dbSetNext rest t n

/-! ### The allocation transaction (src/server.py lines 120-134) -/

/-- A write buffered inside the allocation transaction. -/
inductive WriteOp
  | ins (t : String) (r : CounterRow)
  | setNext (t : String) (n : Int)
  deriving DecidableEq, Repr

/-- Applying one buffered write to the committed table. -/
def applyWrite (db : CounterDB) : WriteOp → CounterDB
  | .ins t r => dbSet db t r
  | .setNext t n => dbSetNext db t n

/-- Applying a transaction's buffered writes, in order, at commit. -/
def applyWrites (db : CounterDB) (ops : List WriteOp) : CounterDB := ops.foldl applyWrite db

/-- Failure points inside the take_next_number transaction: a store failure right
after the locked read, a store failure after the UPDATE but before COMMIT, or no
failure. -/
inductive FailPoint
  | afterRead
  | beforeCommit
  | noFail
  deriving DecidableEq, Repr

/-- Outcome of one allocation request: the HTTP result (some formatted on success,
none when the request fails) and the committed table afterwards. -/
structure AllocOutcome where
  result : Option String
  db : CounterDB
  deriving DecidableEq, Repr

/-- Tail of the allocation transaction shared by both SELECT outcomes: the failure
points, the formatting (whose ValueError also aborts the transaction), the UPDATE
of next, and the commit.  Writes are buffered in pending and applied only at
commit, so any failure before commit leaves the committed table untouched. -/
def runAllocBody (db : CounterDB) (t : String) (fp : FailPoint)
    (next_val : Int) (pfx : String) (padding : Int) (pending : List WriteOp) : AllocOutcome :=
  if fp = FailPoint.afterRead then ⟨none, db⟩
  else
    match formatted_number next_val pfx padding with
    | none => ⟨none, db⟩
    | some f =>
      if fp = FailPoint.beforeCommit then ⟨none, db⟩
      else ⟨some f, applyWrites db (pending ++ [WriteOp.setNext t (next_val + 1)])⟩

/-- Embeds the take_next_number transaction (src/server.py lines 120-134).  The
SELECT ... FOR UPDATE either finds the row or, when absent, the transaction INSERTs
the default row (1, '', 0) and proceeds with those literal values, exactly as
lines 126-130 do. -/
def runAlloc (db : CounterDB) (t : String) (fp : FailPoint) : AllocOutcome :=
  match findCounter db t with
  | none => runAllocBody db t fp 1 "" 0 [WriteOp.ins t ⟨1, "", 0⟩]
  | some r => runAllocBody db t fp r.next r.pfx r.padding []

/-- Committed result of POST /take_next_number: some (formatted, new table) on
success, none when the request raises (the transaction then rolled back). -/
def take_next_number (db : CounterDB) (t : String) : Option (String × CounterDB) :=
  match runAlloc db t FailPoint.noFail with
  | ⟨some f, db2⟩ => some (f, db2)
  | ⟨none, _⟩ => none

/-- Embeds PUT /counters/doc_type (set_counter, src/server.py lines 142-150):
an upsert of the full row, echoing the written values back to the caller. -/
def set_counter (db : CounterDB) (t : String) (c : CounterRow) :
    (String × CounterRow) × CounterDB :=
  ((t, c), dbSet db t c)

/-! ### DATABASE_URL normalization (src/server.py lines 18-21) -/

/-- Does s contain pat as a contiguous substring (Python in on str)? -/
def strContainsSub (s pat : String) : Bool :=
  s.data.tails.any (fun tl => pat.data.isPrefixOf tl)

/-- Embeds the SSL enforcement on the externally supplied connection string:
append sslmode=require, separated by ? or & depending on whether a query string is
already present, unless some sslmode parameter already occurs. -/
def forceSsl (raw : String) : String :=
  if strContainsSub raw "sslmode=" then raw
  else raw ++ (if strContainsSub raw "?" then "&" else "?") ++ "sslmode=require"

/-! ### The counters API surface, one request at a time -/

/-- One request against the counters API surface. -/
inductive ApiOp
  | alloc (t : String)
  | config (t : String) (c : CounterRow)
  | listing
  deriving DecidableEq, Repr

/-- Committed table after serving one request.  A failed allocation rolls back and
leaves the table unchanged; GET /counters reads only. -/
def applyApi (db : CounterDB) : ApiOp → CounterDB
  | .alloc t =>
    match take_next_number db t with
    | some (_, db2) => db2
    | none => db
  | .config t c => (set_counter db t c).2
  | .listing => db

/-- Is the request an administrative configure (PUT /counters)? -/
def isConfig : ApiOp → Bool
  | .config _ _ => true
  | _ => false

/-! ### Interleaved first allocations on one fresh document type

The store serializes the read-modify-write of take_next_number per counters row:
SELECT ... FOR UPDATE takes the row lock when the row exists, and a plain INSERT of
the same primary key blocks behind an uncommitted INSERT and fails with a unique
violation once a conflicting row is committed.  The model below embeds exactly the
statements of the take_next_number transaction for N requests that share one fresh
document type, interleaved by an arbitrary scheduler.  Since every request that
creates the row writes (1, '', 0) and UPDATE touches only next, the single row is
represented by its next column. -/

/-- Phase of one in-flight allocation request for the shared document type.
start: before the SELECT ... FOR UPDATE.  needInsert: the SELECT found no row, the
INSERT has not executed yet.  locked v: holds the row lock (or the pending INSERT),
having read next = v.  updated v: has buffered UPDATE next = v+1.  done v: committed,
the request returned the formatted rendering of v.  failed: the INSERT hit the
unique violation, the request aborted with an error. -/
inductive Phase
  | start
  | needInsert
  | locked (v : Int)
  | updated (v : Int)
  | done (v : Int)
  | failed
  deriving DecidableEq, Repr

/-- Global state of the interleaving: row is the committed next column of the single
counters row (none while the row does not exist); holder is the request currently
holding the row lock taken by SELECT ... FOR UPDATE, or the pending INSERT of the
row, released at commit; txns is the phase of each request, indexed by position. -/
structure ConcState where
  row : Option Int
  holder : Option Nat
  txns : List Phase
  deriving DecidableEq, Repr

/-- One scheduler step: request i executes its next statement when it is not blocked.
none means the schedule is invalid there: the request is finished, or waits on the
row lock (SELECT ... FOR UPDATE on a locked row), or waits behind an uncommitted
INSERT of the same key. -/
def stepTxn (s : ConcState) (i : Nat) : Option ConcState :=
  match s.txns[i]? with
  | none => none
  | some Phase.start =>
    match s.row, s.holder with
    | some v, none => some { s with holder := some i, txns := s.txns.set i (Phase.locked v) }
    | some _, some _ => none
    | none, _ => some { s with txns := s.txns.set i Phase.needInsert }
  | some Phase.needInsert =>
    match s.row, s.holder with
    | some _, _ => some { s with txns := s.txns.set i Phase.failed }
    | none, none => some { s with holder := some i, txns := s.txns.set i (Phase.locked 1) }
    | none, some _ => none
  | some (Phase.locked v) => some { s with txns := s.txns.set i (Phase.updated v) }
  | some (Phase.updated v) =>
    some { row := some (v + 1), holder := none, txns := s.txns.set i (Phase.done v) }
  | some (Phase.done _) => none
  | some Phase.failed => none

/-- Run a schedule: the trace lists, in order, which request executes its next
statement.  none when some scheduled step is blocked or impossible. -/
def runSched (s : ConcState) : List Nat → Option ConcState
  | [] => some s
  | i :: tr =>
    match stepTxn s i with
    | none => none
    | some s2 => runSched s2 tr

/-- Initial state: a fresh document type (no row), lock free, n requests pending. -/
def initConc (n : Nat) : ConcState := ⟨none, none, List.replicate n Phase.start⟩

/-- The sequence value committed and returned by a finished request. -/
def doneVal : Phase → Option Int
  | Phase.done v => some v
  | _ => none

/-- Sequence values returned by the finished requests, in request order. -/
def doneVals (l : List Phase) : List Int := l.filterMap doneVal

/-- Number of committed requests. -/
def numDone (l : List Phase) : Nat := (doneVals l).length

/-- Inductive invariant of the interleaved first-allocation model: the committed next
value is always one past the number of committed requests; a request holding the row
lock read exactly that value and is the unique holder; and the values committed so
far are exactly 1..numDone in some order. -/
structure ConcInv (s : ConcState) : Prop where
  rowEq : s.row.getD 1 = (numDone s.txns : Int) + 1
  active : ∀ i v,
    (s.txns[i]? = some (Phase.locked v) ∨ s.txns[i]? = some (Phase.updated v)) →
    s.holder = some i ∧ v = (numDone s.txns : Int) + 1
  vals : (doneVals s.txns).Perm
    ((List.range (numDone s.txns)).map (fun (k : Nat) => ((k : Int) + 1)))

/-! ### The clients table and upsert_client (src/server.py lines 41-48, 158-179) -/

/-- One row of the clients table.  The nullable columns hold the empty string on
every row this API writes, because upsert_client coalesces its inputs. -/
structure ClientRow where
  id : Nat
  name : String
  address : String
  email : String
  phone : String
  deriving DecidableEq, Repr

/-- The clients table plus its autoincrement cursor (next id to assign). -/
structure ClientDB where
  rows : List ClientRow
  nextId : Nat
  deriving DecidableEq, Repr

/-- The request body of POST /clients.  name is required; the other fields accept
null (Python None), which the handler coalesces with the expression x or ''. -/
structure ClientIn where
  name : String
  address : Option String
  email : Option String
  phone : Option String
  deriving DecidableEq, Repr

/-- Python x or '' on an optional string: None becomes '', and '' stays ''. -/
def orBlank (x : Option String) : String := x.getD ""

/-- SQL equality of a column against a bound parameter: comparing with NULL is never
true, so WHERE email = :e matches no row when the payload email is null. -/
def sqlEq (v : String) (e : Option String) : Bool :=
  match e with
  | some s => v == s
  | none => false

/-- SELECT id FROM clients WHERE name = :n AND email = :e (first matching row). -/
def findByNameEmail (rows : List ClientRow) (c : ClientIn) : Option ClientRow :=
  rows.find? (fun r => r.name == c.name && sqlEq r.email c.email)

/-- Does inserting (name, email) violate the unique constraint uq_clients_name_email
against the stored rows? -/
def violatesUnique (rows : List ClientRow) (name email : String) : Bool :=
  rows.any (fun r => r.name == name && r.email == email)

/-- UPDATE clients SET address = :a, phone = :ph WHERE id = :id. -/
def updateClientRow (rows : List ClientRow) (i : Nat) (a ph : String) : List ClientRow :=
  rows.map (fun r => if r.id == i then { r with address := a, phone := ph } else r)

/-- SELECT ... FROM clients WHERE id = :i. -/
def findById (rows : List ClientRow) (i : Nat) : Option ClientRow :=
  rows.find? (fun r => r.id == i)

/-- Outcome of POST /clients: the echoed row and the new table, or the HTTP error
(status 400) raised when the INSERT hits the unique constraint, after rollback. -/
inductive UpsertResult
  | ok (row : ClientRow) (db : ClientDB)
  | constraintError (status : Nat) (db : ClientDB)
  deriving DecidableEq, Repr

/-- Embeds upsert_client (src/server.py lines 158-179).  The SELECT matches with SQL
equality on the raw payload email (null matches nothing); the UPDATE and INSERT
write the coalesced values; the INSERT checks the unique constraint against the
stored values; the handler then re-reads the row by id and echoes it.  The re-read
always finds the row it just wrote, so its impossible branch returns the written
row unchanged. -/
def upsert_client (db : ClientDB) (c : ClientIn) : UpsertResult :=
  match findByNameEmail db.rows c with
  | some row =>
    let rows2 := updateClientRow db.rows row.id (orBlank c.address) (orBlank c.phone)
    let db2 : ClientDB := ⟨rows2, db.nextId⟩
    UpsertResult.ok ((findById rows2 row.id).getD row) db2
  | none =>
    if violatesUnique db.rows c.name (orBlank c.email) then
      UpsertResult.constraintError 400 db
    else
      let nr : ClientRow :=
        ⟨db.nextId, c.name, orBlank c.address, orBlank c.email, orBlank c.phone⟩
      let db2 : ClientDB := ⟨db.rows ++ [nr], db.nextId + 1⟩
      UpsertResult.ok ((findById db2.rows nr.id).getD nr) db2

/-- Well-formedness of the clients table, maintained by the store itself: ids are
unique and below the autoincrement cursor, and uq_clients_name_email holds. -/
def WFClients (db : ClientDB) : Prop :=
  (db.rows.map ClientRow.id).Nodup ∧
  (∀ r, r ∈ db.rows → r.id < db.nextId) ∧
  (db.rows.map (fun r => (r.name, r.email))).Nodup

instance (db : ClientDB) : Decidable (WFClients db) := by
  unfold WFClients; infer_instance

/-! ### Lemmas about the counters table operations -/

theorem findCounter_cons (e : String × CounterRow) (db : CounterDB) (t : String) :
    findCounter (e :: db) t = if e.1 == t then some e.2 else findCounter db t := by
  cases h : (e.1 == t) <;> simp [findCounter, List.find?_cons, h]

theorem findCounter_dbSet_self (db : CounterDB) (t : String) (r : CounterRow) :
    findCounter (dbSet db t r) t = some r := by
  induction db with
  | nil => simp [dbSet, findCounter_cons]
  | cons e rest ih =>
    cases h : (e.1 == t) with
    | true => simp [dbSet, h, findCounter_cons]
    | false => simp [dbSet, h, findCounter_cons, ih]

theorem findCounter_dbSet_ne (db : CounterDB) (t u : String) (r : CounterRow)
    (h : u ≠ t) : findCounter (dbSet db t r) u = findCounter db u := by
  induction db with
  | nil => simp [dbSet, findCounter_cons, findCounter, (beq_eq_false_iff_ne).mpr (Ne.symm h)]
  | cons e rest ih =>
    cases he : (e.1 == t) with
    | true =>
      have : e.1 = t := beq_iff_eq.mp he
      simp [dbSet, he, findCounter_cons, this, (beq_eq_false_iff_ne).mpr (Ne.symm h)]
    | false => simp [dbSet, he, findCounter_cons, ih]

theorem findCounter_dbSetNext_self (db : CounterDB) (t : String) (n : Int) :
    findCounter (dbSetNext db t n) t =
      (findCounter db t).map (fun r => { r with next := n }) := by
  induction db with
  | nil => simp [dbSetNext, findCounter]
  | cons e rest ih =>
    cases h : (e.1 == t) with
    | true => simp [dbSetNext, h, findCounter_cons]
    | false => simp [dbSetNext, h, findCounter_cons, ih]

theorem findCounter_dbSetNext_ne (db : CounterDB) (t u : String) (n : Int)
    (h : u ≠ t) : findCounter (dbSetNext db t n) u = findCounter db u := by
  induction db with
  | nil => simp [dbSetNext]
  | cons e rest ih =>
    cases he : (e.1 == t) with
    | true =>
      have : e.1 = t := beq_iff_eq.mp he
      simp [dbSetNext, he, findCounter_cons, this, (beq_eq_false_iff_ne).mpr (Ne.symm h)]
    | false => simp [dbSetNext, he, findCounter_cons, ih]

theorem dbSet_absorb (db : CounterDB) (t : String) (c c2 : CounterRow) :
    dbSet (dbSet db t c) t c2 = dbSet db t c2 := by
  induction db with
  | nil => simp [dbSet]
  | cons e rest ih =>
    cases h : (e.1 == t) with
    | true => simp [dbSet, h]
    | false => simp [dbSet, h, ih]

/-! ### Lemmas about the allocation transaction -/

theorem runAllocBody_fail (db : CounterDB) (t : String) (fp : FailPoint)
    (next_val : Int) (pfx : String) (padding : Int) (pending : List WriteOp)
    (h : fp ≠ FailPoint.noFail) :
    runAllocBody db t fp next_val pfx padding pending = ⟨none, db⟩ := by
  cases fp with
  | afterRead => simp [runAllocBody]
  | beforeCommit =>
    cases hf : formatted_number next_val pfx padding <;> simp [runAllocBody, hf]
  | noFail => exact absurd rfl h

theorem take_next_number_found {db : CounterDB} {t : String} {r : CounterRow}
    (h : findCounter db t = some r) :
    take_next_number db t =
      (formatted_number r.next r.pfx r.padding).map
        (fun f => (f, dbSetNext db t (r.next + 1))) := by
  cases hf : formatted_number r.next r.pfx r.padding <;>
    simp [take_next_number, runAlloc, h, runAllocBody, hf, applyWrites, applyWrite]

theorem take_next_number_missing {db : CounterDB} {t : String}
    (h : findCounter db t = none) :
    take_next_number db t = some ("1", dbSetNext (dbSet db t ⟨1, "", 0⟩) t 2) := by
  have hf : formatted_number 1 "" 0 = some "1" := rfl
  simp [take_next_number, runAlloc, h, runAllocBody, hf, applyWrites, applyWrite]

theorem take_next_number_preserves_other {db db2 : CounterDB} {u s : String}
    (t : String) (hrun : take_next_number db u = some (s, db2)) (hne : t ≠ u) :
    findCounter db2 t = findCounter db t := by
  cases hfind : findCounter db u with
  | none =>
    rw [take_next_number_missing hfind] at hrun
    obtain ⟨-, rfl⟩ := Prod.mk.injEq .. ▸ Option.some.inj hrun
    rw [findCounter_dbSetNext_ne _ _ _ _ hne, findCounter_dbSet_ne _ _ _ _ hne]
  | some r =>
    rw [take_next_number_found hfind] at hrun
    cases hf : formatted_number r.next r.pfx r.padding with
    | none => rw [hf] at hrun; simp at hrun
    | some f =>
      rw [hf] at hrun
      obtain ⟨-, rfl⟩ := Prod.mk.injEq .. ▸ Option.some.inj hrun
      exact findCounter_dbSetNext_ne _ _ _ _ hne

theorem formatted_number_eq_spec {n p : Int} {pfx f : String}
    (h : formatted_number n pfx p = some f) : f = pfx ++ zero_pad_spec n p := by
  by_cases h1 : p ≠ 0 ∧ 0 ≤ n
  · by_cases h2 : 0 < p
    · unfold formatted_number at h
      rw [if_pos h1, if_pos h2] at h
      simp only [zero_pad_spec]
      rw [if_pos ⟨h2, h1.2⟩]
      exact (Option.some.inj h).symm
    · unfold formatted_number at h
      rw [if_pos h1, if_neg h2] at h
      exact Option.noConfusion h
  · unfold formatted_number at h
    rw [if_neg h1] at h
    have hspec : ¬(0 < p ∧ 0 ≤ n) := fun hc => h1 ⟨hc.1.ne', hc.2⟩
    simp only [zero_pad_spec]
    rw [if_neg hspec]
    exact (Option.some.inj h).symm

/-- Core fact shared by several theorems: a successful allocation on an existing row
returns the formatted rendering of the pre-call state and commits exactly the
increment of next. -/
theorem alloc_increments {db db2 : CounterDB} {t s : String} {r : CounterRow}
    (hfind : findCounter db t = some r)
    (hrun : take_next_number db t = some (s, db2)) :
    s = r.pfx ++ zero_pad_spec r.next r.padding ∧ db2 = dbSetNext db t (r.next + 1) := by
  rw [take_next_number_found hfind] at hrun
  cases hf : formatted_number r.next r.pfx r.padding with
  | none => rw [hf] at hrun; simp at hrun
  | some f =>
    rw [hf] at hrun
    have h2 := Option.some.inj hrun
    have hs : f = s := congrArg Prod.fst h2
    have hdb : dbSetNext db t (r.next + 1) = db2 := congrArg Prod.snd h2
    exact ⟨by rw [← hs]; exact formatted_number_eq_spec hf, hdb.symm⟩

/-- One non-configure request never decreases the next column of any counter. -/
theorem applyApi_mono {db : CounterDB} {t : String} {r : CounterRow} (op : ApiOp)
    (hop : isConfig op = false) (hfind : findCounter db t = some r) :
    ∃ r2, findCounter (applyApi db op) t = some r2 ∧ r.next ≤ r2.next := by
  cases op with
  | listing => exact ⟨r, hfind, le_refl _⟩
  | config u c => simp [isConfig] at hop
  | alloc u =>
    simp only [applyApi]
    cases hrun : take_next_number db u with
    | none => exact ⟨r, hfind, le_refl _⟩
    | some p =>
      obtain ⟨s, db2⟩ := p
      by_cases hu : t = u
      · subst hu
        obtain ⟨-, rfl⟩ := alloc_increments hfind hrun
        have h2 : findCounter (dbSetNext db t (r.next + 1)) t
            = some { r with next := r.next + 1 } := by
          rw [findCounter_dbSetNext_self, hfind]
          rfl
        exact ⟨{ r with next := r.next + 1 }, h2, by show r.next ≤ r.next + 1; omega⟩
      · rw [take_next_number_preserves_other t hrun hu]
        exact ⟨r, hfind, le_refl _⟩

/-! ### Substring lemmas for the connection-string normalization -/

theorem tailsContains_append (a b pat : List Char)
    (h : (b.tails.any fun tl => pat.isPrefixOf tl) = true) :
    ((a ++ b).tails.any fun tl => pat.isPrefixOf tl) = true := by
  induction a with
  | nil => simpa using h
  | cons x xs ih =>
    rw [List.cons_append, List.tails_cons, List.any_cons, ih, Bool.or_true]

theorem strContainsSub_append_right (a b pat : String)
    (h : strContainsSub b pat = true) : strContainsSub (a ++ b) pat = true := by
  simp only [strContainsSub] at h ⊢
  rw [String.data_append]
  exact tailsContains_append a.data b.data pat.data h

/-! ### Claim theorems -/

/-- C1: for a counter stored as (next = n, prefix = p, padding = w), a successful
allocate returns p ++ zero_pad(n, w) computed from the pre-call state and leaves the
counter at next = n + 1 with prefix and padding unchanged. -/
theorem take_next_number_uses_stored_state (db db2 : CounterDB) (t s : String)
    (r : CounterRow) (hfind : findCounter db t = some r)
    (hrun : take_next_number db t = some (s, db2)) :
    s = r.pfx ++ zero_pad_spec r.next r.padding ∧
    findCounter db2 t = some ⟨r.next + 1, r.pfx, r.padding⟩ := by
  obtain ⟨hs, rfl⟩ := alloc_increments hfind hrun
  refine ⟨hs, ?_⟩
  rw [findCounter_dbSetNext_self, hfind]
  rfl

/-- C1 witness: configure("invoice", next=100, prefix="INV-", padding=5) followed by
allocate("invoice") returns "INV-00100" and leaves the counter at next = 101. -/
theorem take_next_number_uses_stored_state_witness :
    "INV-00100" = "INV-" ++ zero_pad_spec 100 5 ∧
    findCounter [("invoice", ⟨101, "INV-", 5⟩)] "invoice" = some ⟨101, "INV-", 5⟩ := by
  have h := take_next_number_uses_stored_state
    (set_counter [] "invoice" ⟨100, "INV-", 5⟩).2 [("invoice", ⟨101, "INV-", 5⟩)]
    "invoice" "INV-00100" ⟨100, "INV-", 5⟩ (by decide) (by decide)
  exact ⟨h.1, h.2⟩

/-- C2: allocate on a doc_type with no counter row creates the row with the defaults
(next = 1, empty prefix, padding 0) in the same transaction, returns the formatted
string "1", leaves the counter at next = 2, and touches no other counter. -/
theorem take_next_number_creates_missing_counter (db : CounterDB) (t : String)
    (h : findCounter db t = none) :
    take_next_number db t = some ("1", dbSetNext (dbSet db t ⟨1, "", 0⟩) t 2) ∧
    findCounter (dbSetNext (dbSet db t ⟨1, "", 0⟩) t 2) t = some ⟨2, "", 0⟩ ∧
    (∀ u, u ≠ t →
      findCounter (dbSetNext (dbSet db t ⟨1, "", 0⟩) t 2) u = findCounter db u) := by
  refine ⟨take_next_number_missing h, ?_, ?_⟩
  · rw [findCounter_dbSetNext_self, findCounter_dbSet_self]
    rfl
  · intro u hu
    rw [findCounter_dbSetNext_ne _ _ _ _ hu, findCounter_dbSet_ne _ _ _ _ hu]

/-- C2 witness: allocate("invoice") on the empty table returns "1" and leaves the
created counter at next = 2. -/
theorem take_next_number_creates_missing_counter_witness :
    take_next_number [] "invoice"
      = some ("1", dbSetNext (dbSet [] "invoice" ⟨1, "", 0⟩) "invoice" 2) ∧
    findCounter (dbSetNext (dbSet [] "invoice" ⟨1, "", 0⟩) "invoice" 2) "invoice"
      = some ⟨2, "", 0⟩ :=
  ⟨(take_next_number_creates_missing_counter [] "invoice" rfl).1,
   (take_next_number_creates_missing_counter [] "invoice" rfl).2.1⟩

/-- C3 counterexample: zero_pad(7, -1) does not render "7" unpadded: the code enters
the padded branch for any nonzero padding and the resulting Python format specifier
"0-1d" raises ValueError (modelled none), so the claimed no-padding rendering for
p < 0 is false. -/
theorem zero_pad_negative_padding_counterexample :
    formatted_number 7 "" (-1) = none ∧ intToString 7 = "7" ∧
    formatted_number 7 "" (-1) ≠ some "7" := by decide

/-- C3 (amended): zero_pad left-pads with zeros to width p exactly when p > 0 and
n ≥ 0; it renders n with no padding when p = 0 or n < 0 (so negative values are never
padded); and when p < 0 with n ≥ 0 it raises ValueError instead of rendering
unpadded. -/
theorem formatted_number_padding_cases (n p : Int) (pfx : String) :
    (0 < p ∧ 0 ≤ n → formatted_number n pfx p = some (pfx ++ zeroPadNat n.toNat p.toNat)) ∧
    (p = 0 ∨ n < 0 → formatted_number n pfx p = some (pfx ++ intToString n)) ∧
    (p < 0 ∧ 0 ≤ n → formatted_number n pfx p = none) ∧
    (¬(p < 0 ∧ 0 ≤ n) → formatted_number n pfx p = some (pfx ++ zero_pad_spec n p)) := by
  refine ⟨?_, ?_, ?_, ?_⟩
  · rintro ⟨hp, hn⟩
    unfold formatted_number
    rw [if_pos ⟨hp.ne', hn⟩, if_pos hp]
  · rintro (rfl | hn)
    · unfold formatted_number
      rw [if_neg (by simp)]
    · unfold formatted_number
      rw [if_neg (by intro hc; omega)]
  · rintro ⟨hp, hn⟩
    unfold formatted_number
    rw [if_pos ⟨hp.ne, hn⟩, if_neg (by omega)]
  · intro h
    by_cases hc : 0 < p ∧ 0 ≤ n
    · unfold formatted_number zero_pad_spec
      rw [if_pos ⟨hc.1.ne', hc.2⟩, if_pos hc.1, if_pos hc]
    · have hplain : ¬(p ≠ 0 ∧ 0 ≤ n) := by
        rintro ⟨hp, hn⟩
        rcases lt_or_gt_of_ne hp with h1 | h1
        · exact h ⟨h1, hn⟩
        · exact hc ⟨h1, hn⟩
      unfold formatted_number zero_pad_spec
      rw [if_neg hplain, if_neg hc]

/-- C3 witness: zero_pad(7, 4) is "0007", zero_pad(7, 0) is "7", and
zero_pad(-1, 4) is "-1" with no padding applied. -/
theorem formatted_number_padding_cases_witness :
    formatted_number 7 "" 4 = some ("" ++ zeroPadNat 7 4) ∧
    formatted_number 7 "" 0 = some ("" ++ intToString 7) ∧
    formatted_number (-1) "" 4 = some ("" ++ intToString (-1)) ∧
    formatted_number 7 "" (-1) = none ∧
    zeroPadNat 7 4 = "0007" ∧ intToString 7 = "7" ∧ intToString (-1) = "-1" := by
  refine ⟨?_, ?_, ?_, ?_, ?_, ?_, ?_⟩
  · exact (formatted_number_padding_cases 7 4 "").1 (by omega)
  · exact (formatted_number_padding_cases 7 0 "").2.1 (Or.inl rfl)
  · exact (formatted_number_padding_cases (-1) 4 "").2.1 (Or.inr (by omega))
  · exact (formatted_number_padding_cases 7 (-1) "").2.2.1 (by omega)
  · decide
  · decide
  · decide

/-- C5: a failure at any point between the locked read and the commit rolls the
transaction back: no partial increment is visible (the table, hence next, is
unchanged) and a subsequent successful allocate returns exactly the number the
failed attempt would have returned. -/
theorem failed_alloc_rolls_back (db : CounterDB) (t : String) (fp : FailPoint)
    (h : fp ≠ FailPoint.noFail) :
    (runAlloc db t fp).db = db ∧
    (runAlloc db t fp).result = none ∧
    findCounter (runAlloc db t fp).db t = findCounter db t ∧
    (runAlloc (runAlloc db t fp).db t FailPoint.noFail).result =
      (runAlloc db t FailPoint.noFail).result := by
  have hb : runAlloc db t fp = ⟨none, db⟩ := by
    unfold runAlloc
    cases hfind : findCounter db t <;> exact runAllocBody_fail _ _ _ _ _ _ _ h
  rw [hb]
  exact ⟨rfl, rfl, rfl, rfl⟩

/-- C5 witness: a failure right after the read on a concrete counter leaves the table
unchanged and does not consume the number. -/
theorem failed_alloc_rolls_back_witness :
    (runAlloc [("q", ⟨3, "Q-", 0⟩)] "q" FailPoint.afterRead).db = [("q", ⟨3, "Q-", 0⟩)] ∧
    (runAlloc [("q", ⟨3, "Q-", 0⟩)] "q" FailPoint.afterRead).result = none ∧
    findCounter (runAlloc [("q", ⟨3, "Q-", 0⟩)] "q" FailPoint.afterRead).db "q"
      = findCounter [("q", ⟨3, "Q-", 0⟩)] "q" ∧
    (runAlloc (runAlloc [("q", ⟨3, "Q-", 0⟩)] "q" FailPoint.afterRead).db "q"
        FailPoint.noFail).result
      = (runAlloc [("q", ⟨3, "Q-", 0⟩)] "q" FailPoint.noFail).result :=
  failed_alloc_rolls_back [("q", ⟨3, "Q-", 0⟩)] "q" FailPoint.afterRead (by decide)

/-- C6: configure sets the counter row to exactly the given values (creating when
absent, overwriting when present), is idempotent, lets a second configure fully
overwrite the first with no field merging, touches no other counter, and echoes the
written state. -/
theorem set_counter_idempotent_overwrite (db : CounterDB) (t u : String)
    (c c2 : CounterRow) :
    findCounter (set_counter db t c).2 t = some c ∧
    (set_counter (set_counter db t c).2 t c).2 = (set_counter db t c).2 ∧
    findCounter (set_counter (set_counter db t c).2 t c2).2 t = some c2 ∧
    (u ≠ t → findCounter (set_counter db t c).2 u = findCounter db u) ∧
    (set_counter db t c).1 = (t, c) := by
  refine ⟨findCounter_dbSet_self .., ?_, findCounter_dbSet_self ..,
    fun hu => findCounter_dbSet_ne _ _ _ _ hu, rfl⟩
  show dbSet (dbSet db t c) t c = dbSet db t c
  exact dbSet_absorb ..

/-- C6 witness: a concrete configure-twice run on an existing row. -/
theorem set_counter_idempotent_overwrite_witness :
    findCounter (set_counter [("a", ⟨1, "", 0⟩)] "a" ⟨5, "X", 2⟩).2 "a" = some ⟨5, "X", 2⟩ ∧
    (set_counter (set_counter [("a", ⟨1, "", 0⟩)] "a" ⟨5, "X", 2⟩).2 "a" ⟨5, "X", 2⟩).2
      = (set_counter [("a", ⟨1, "", 0⟩)] "a" ⟨5, "X", 2⟩).2 ∧
    findCounter (set_counter (set_counter [("a", ⟨1, "", 0⟩)] "a" ⟨5, "X", 2⟩).2
        "a" ⟨9, "Y", 3⟩).2 "a" = some ⟨9, "Y", 3⟩ ∧
    findCounter (set_counter [("a", ⟨1, "", 0⟩)] "a" ⟨5, "X", 2⟩).2 "b"
      = findCounter [("a", ⟨1, "", 0⟩)] "b" := by
  have h := set_counter_idempotent_overwrite [("a", ⟨1, "", 0⟩)] "a" "b" ⟨5, "X", 2⟩ ⟨9, "Y", 3⟩
  exact ⟨h.1, h.2.1, h.2.2.1, h.2.2.2.1 (by decide)⟩

/-- C7 counterexample: the exposed configure operation can decrease next: configure
next to 5 and then to 3 and the stored next drops from 5 to 3, so next is not
monotonically non-decreasing under every exposed operation sequence. -/
theorem configure_can_decrease_next :
    findCounter (set_counter [] "invoice" ⟨5, "", 0⟩).2 "invoice" = some ⟨5, "", 0⟩ ∧
    findCounter (set_counter (set_counter [] "invoice" ⟨5, "", 0⟩).2
        "invoice" ⟨3, "", 0⟩).2 "invoice" = some ⟨3, "", 0⟩ ∧
    (3 : Int) < 5 := by decide

/-- C7 (amended): each successful allocate increments the touched counter's next by
exactly 1, and across every sequence of allocate and list requests (configure
excluded: the administrative overwrite can set next arbitrarily, see the
counterexample) next is monotonically non-decreasing. -/
theorem next_monotone_without_configure :
    (∀ db db2 : CounterDB, ∀ t s : String, ∀ r : CounterRow,
      findCounter db t = some r → take_next_number db t = some (s, db2) →
      findCounter db2 t = some ⟨r.next + 1, r.pfx, r.padding⟩) ∧
    (∀ ops : List ApiOp, ∀ db : CounterDB, ∀ t : String, ∀ r : CounterRow,
      (∀ op ∈ ops, isConfig op = false) → findCounter db t = some r →
      ∃ r2, findCounter (ops.foldl applyApi db) t = some r2 ∧ r.next ≤ r2.next) := by
  constructor
  · intro db db2 t s r hfind hrun
    obtain ⟨-, rfl⟩ := alloc_increments hfind hrun
    rw [findCounter_dbSetNext_self, hfind]
    rfl
  · intro ops
    induction ops with
    | nil => exact fun db t r _ hfind => ⟨r, hfind, le_refl _⟩
    | cons op rest ih =>
      intro db t r hops hfind
      obtain ⟨r1, h1, hle1⟩ := applyApi_mono op (hops op (List.mem_cons_self ..)) hfind
      obtain ⟨r2, h2, hle2⟩ :=
        ih (applyApi db op) t r1 (fun o ho => hops o (List.mem_cons_of_mem _ ho)) h1
      exact ⟨r2, by simpa using h2, le_trans hle1 hle2⟩

/-- C7 witness: a successful allocate on a concrete counter moves next from 1 to 2,
an increment by exactly 1. -/
theorem next_monotone_without_configure_witness :
    findCounter [("v", ⟨2, "", 0⟩)] "v" = some ⟨1 + 1, "", 0⟩ :=
  next_monotone_without_configure.1 [("v", ⟨1, "", 0⟩)] [("v", ⟨2, "", 0⟩)]
    "v" "1" ⟨1, "", 0⟩ (by decide) (by decide)

/-- C9: the database URL normalization appends a require-encryption parameter when no
sslmode parameter is present, choosing ? or & by whether a query string already
exists, leaves a string that already has one unchanged, and always ends with an
sslmode parameter present. -/
theorem database_url_ssl_normalization (raw : String) :
    (strContainsSub raw "sslmode=" = true → forceSsl raw = raw) ∧
    (strContainsSub raw "sslmode=" = false →
      forceSsl raw
        = raw ++ (if strContainsSub raw "?" then "&" else "?") ++ "sslmode=require") ∧
    strContainsSub (forceSsl raw) "sslmode=" = true := by
  refine ⟨fun h => by simp [forceSsl, h], fun h => by simp [forceSsl, h], ?_⟩
  cases h : strContainsSub raw "sslmode=" with
  | true => simp [forceSsl, h]
  | false =>
    simp only [forceSsl, h, Bool.false_eq_true, if_false]
    exact strContainsSub_append_right _ _ _ (by decide)

/-- C9 witness: a connection string without query string gets ?sslmode=require
appended, and the result contains an sslmode parameter. -/
theorem database_url_ssl_normalization_witness :
    forceSsl "postgresql://h/db"
      = "postgresql://h/db"
          ++ (if strContainsSub "postgresql://h/db" "?" then "&" else "?")
          ++ "sslmode=require" ∧
    strContainsSub (forceSsl "postgresql://h/db") "sslmode=" = true :=
  ⟨(database_url_ssl_normalization "postgresql://h/db").2.1 (by decide),
   (database_url_ssl_normalization "postgresql://h/db").2.2⟩

/-- C10: allocate performs no validation on doc_type: for the empty string (as for
any key) it runs the same create-if-absent, format and increment logic, keying the
counter row by that string and never rejecting the input. -/
theorem take_next_number_accepts_any_doc_type (db : CounterDB) :
    (findCounter db "" = none →
      take_next_number db "" = some ("1", dbSetNext (dbSet db "" ⟨1, "", 0⟩) "" 2)) ∧
    (∀ r, findCounter db "" = some r →
      take_next_number db "" =
        (formatted_number r.next r.pfx r.padding).map
          (fun f => (f, dbSetNext db "" (r.next + 1)))) :=
  ⟨fun h => take_next_number_missing h, fun _ h => take_next_number_found h⟩

/-- C10 witness: allocate("") creates and increments a counter keyed by the empty
string, and behaves by the generic formula when that row exists. -/
theorem take_next_number_accepts_any_doc_type_witness :
    take_next_number [] "" = some ("1", dbSetNext (dbSet [] "" ⟨1, "", 0⟩) "" 2) ∧
    take_next_number [("", ⟨7, "X", 2⟩)] ""
      = (formatted_number 7 "X" 2).map
          (fun f => (f, dbSetNext [("", ⟨7, "X", 2⟩)] "" (7 + 1))) :=
  ⟨(take_next_number_accepts_any_doc_type []).1 rfl,
   (take_next_number_accepts_any_doc_type [("", ⟨7, "X", 2⟩)]).2 ⟨7, "X", 2⟩ rfl⟩

/-! ### Lemmas about the clients table -/

theorem find?_map_of_pred {α : Type} (f : α → α) (p : α → Bool) (l : List α)
    (hf : ∀ a, p (f a) = p a) :
    (l.map f).find? p = (l.find? p).map f := by
  induction l with
  | nil => rfl
  | cons x xs ih =>
    cases h : p x with
    | true => simp [List.find?_cons, hf, h]
    | false => simp [List.find?_cons, hf, h, ih]

theorem find?_append_left_none {α : Type} (p : α → Bool) (l1 l2 : List α)
    (h : ∀ x ∈ l1, p x = false) : (l1 ++ l2).find? p = l2.find? p := by
  induction l1 with
  | nil => rfl
  | cons x xs ih =>
    rw [List.cons_append]
    simp [List.find?_cons, h x (List.mem_cons_self ..),
      ih (fun y hy => h y (List.mem_cons_of_mem _ hy))]

theorem findById_of_mem {rows : List ClientRow} {r : ClientRow}
    (hnodup : (rows.map ClientRow.id).Nodup) (hmem : r ∈ rows) :
    findById rows r.id = some r := by
  induction rows with
  | nil => cases hmem
  | cons x xs ih =>
    rw [List.map_cons, List.nodup_cons] at hnodup
    rcases List.mem_cons.mp hmem with rfl | hmem2
    · simp [findById, List.find?_cons]
    · have hx : (x.id == r.id) = false := by
        rw [beq_eq_false_iff_ne]
        intro hEq
        exact hnodup.1 (hEq ▸ List.mem_map_of_mem ClientRow.id hmem2)
      have hrec := ih hnodup.2 hmem2
      simp only [findById, List.find?_cons, hx] at hrec ⊢
      exact hrec

/-- The row transformer of UPDATE clients SET address, phone WHERE id = i. -/
theorem updateClientRow_eq_map (rows : List ClientRow) (i : Nat) (a ph : String) :
    updateClientRow rows i a ph =
      rows.map (fun r => if r.id == i then { r with address := a, phone := ph } else r) := rfl

theorem ufun_id (i : Nat) (a ph : String) (r : ClientRow) :
    (if r.id == i then { r with address := a, phone := ph } else r).id = r.id := by
  cases h : r.id == i <;> simp [h]

theorem ufun_name (i : Nat) (a ph : String) (r : ClientRow) :
    (if r.id == i then { r with address := a, phone := ph } else r).name = r.name := by
  cases h : r.id == i <;> simp [h]

theorem ufun_email (i : Nat) (a ph : String) (r : ClientRow) :
    (if r.id == i then { r with address := a, phone := ph } else r).email = r.email := by
  cases h : r.id == i <;> simp [h]

/-- C8 counterexample: call upsert_client twice with identical (name, email) where the
email is null in both payloads and a different address: the SELECT compares
email = NULL, matches nothing, and the second INSERT of the coalesced empty-string
email hits the unique constraint, so the second call fails with 400 instead of
updating the row in place. -/
theorem upsert_client_null_email_counterexample :
    upsert_client ⟨[], 1⟩ ⟨"alice", some "addr1", none, none⟩
      = UpsertResult.ok ⟨1, "alice", "addr1", "", ""⟩ ⟨[⟨1, "alice", "addr1", "", ""⟩], 2⟩ ∧
    upsert_client ⟨[⟨1, "alice", "addr1", "", ""⟩], 2⟩ ⟨"alice", some "addr2", none, none⟩
      = UpsertResult.constraintError 400 ⟨[⟨1, "alice", "addr1", "", ""⟩], 2⟩ := by decide

theorem findById_updateClientRow (rows : List ClientRow) (i : Nat) (a ph : String) :
    findById (updateClientRow rows i a ph) i
      = (findById rows i).map
          (fun r => if r.id == i then { r with address := a, phone := ph } else r) := by
  simp only [findById, updateClientRow_eq_map]
  exact find?_map_of_pred _ _ rows (fun r => by rw [ufun_id])

theorem findByNameEmail_updateClientRow (rows : List ClientRow) (c : ClientIn)
    (i : Nat) (a ph : String) :
    findByNameEmail (updateClientRow rows i a ph) c
      = (findByNameEmail rows c).map
          (fun r => if r.id == i then { r with address := a, phone := ph } else r) := by
  simp only [findByNameEmail, updateClientRow_eq_map]
  exact find?_map_of_pred _ _ rows (fun r => by rw [ufun_name i a ph r, ufun_email i a ph r])

theorem findByNameEmail_congr (rows : List ClientRow) {c1 c2 : ClientIn}
    (hn : c2.name = c1.name) (he : c2.email = c1.email) :
    findByNameEmail rows c2 = findByNameEmail rows c1 := by
  simp only [findByNameEmail, hn, he]

/-- When the SELECT finds a row whose id re-reads to itself, upsert_client takes the
update path: it rewrites address and phone of that row in place and echoes it. -/
theorem upsert_client_update_result {db : ClientDB} {c : ClientIn} {w : ClientRow}
    (hsel : findByNameEmail db.rows c = some w)
    (hfid : findById db.rows w.id = some w) :
    upsert_client db c = UpsertResult.ok
      { w with address := orBlank c.address, phone := orBlank c.phone }
      ⟨updateClientRow db.rows w.id (orBlank c.address) (orBlank c.phone), db.nextId⟩ := by
  have hfid2 : findById (updateClientRow db.rows w.id (orBlank c.address) (orBlank c.phone)) w.id
      = some { w with address := orBlank c.address, phone := orBlank c.phone } := by
    rw [findById_updateClientRow, hfid]
    simp
  simp [upsert_client, hsel, hfid2]

/-- When the SELECT finds nothing and the unique constraint is clear, upsert_client
inserts the coalesced row under the next id. -/
theorem upsert_client_fresh_insert {db : ClientDB} {c : ClientIn}
    (hwf2 : ∀ r ∈ db.rows, r.id < db.nextId)
    (hsel : findByNameEmail db.rows c = none)
    (hviol : violatesUnique db.rows c.name (orBlank c.email) = false) :
    upsert_client db c = UpsertResult.ok
      ⟨db.nextId, c.name, orBlank c.address, orBlank c.email, orBlank c.phone⟩
      ⟨db.rows ++ [⟨db.nextId, c.name, orBlank c.address, orBlank c.email, orBlank c.phone⟩],
        db.nextId + 1⟩ := by
  have hfid : findById
      (db.rows ++ [⟨db.nextId, c.name, orBlank c.address, orBlank c.email, orBlank c.phone⟩])
      db.nextId
      = some ⟨db.nextId, c.name, orBlank c.address, orBlank c.email, orBlank c.phone⟩ := by
    simp only [findById]
    rw [find?_append_left_none _ _ _
      (fun x hx => beq_eq_false_iff_ne.mpr (Nat.ne_of_lt (hwf2 x hx)))]
    simp [List.find?_cons]
  simp [upsert_client, hsel, hviol, hfid]

/-- C8 (amended): with the email supplied as a string (non-null) in both payloads,
calling upsert_client twice with identical (name, email) but a different address
updates the existing row in place: same id, the new address, and no extra row.  When
the payload email is null in both calls the second call instead fails (see the
counterexample).  A write that violates the (name, email) unique constraint is
surfaced to the caller as a rejected-request 400 error with the store rolled back,
not retried. -/
theorem upsert_client_update_in_place :
    (∀ db db1 : ClientDB, ∀ c1 c2 : ClientIn, ∀ e : String, ∀ r1 : ClientRow,
      WFClients db → c2.name = c1.name → c2.email = c1.email → c1.email = some e →
      upsert_client db c1 = UpsertResult.ok r1 db1 →
      ∃ r2 db2, upsert_client db1 c2 = UpsertResult.ok r2 db2 ∧
        r2.id = r1.id ∧ r2.address = orBlank c2.address ∧
        db2.rows.length = db1.rows.length) ∧
    (∀ db : ClientDB, ∀ c : ClientIn,
      findByNameEmail db.rows c = none →
      violatesUnique db.rows c.name (orBlank c.email) = true →
      upsert_client db c = UpsertResult.constraintError 400 db) := by
  constructor
  · intro db db1 c1 c2 e r1 hwf hn he he1 hrun
    have key : ∃ w : ClientRow, findByNameEmail db1.rows c1 = some w ∧
        findById db1.rows w.id = some w ∧ w.id = r1.id := by
      cases hsel1 : findByNameEmail db.rows c1 with
      | some row0 =>
        have hmem : row0 ∈ db.rows := List.mem_of_find?_eq_some hsel1
        have hfid0 : findById db.rows row0.id = some row0 := findById_of_mem hwf.1 hmem
        have hcall := upsert_client_update_result hsel1 hfid0
        rw [hcall] at hrun
        obtain ⟨hr1, hdb1⟩ := UpsertResult.ok.inj hrun
        refine ⟨r1, ?_, ?_, rfl⟩
        · rw [← hdb1]
          show findByNameEmail (updateClientRow db.rows row0.id _ _) c1 = some r1
          rw [findByNameEmail_updateClientRow, hsel1, ← hr1]
          simp
        · rw [← hdb1, ← hr1]
          show findById (updateClientRow db.rows row0.id _ _) row0.id = _
          rw [findById_updateClientRow, hfid0]
          simp
      | none =>
        have hviol : violatesUnique db.rows c1.name (orBlank c1.email) = false := by
          simp only [violatesUnique]
          rw [List.any_eq_false]
          intro r hr
          have hfalse := List.find?_eq_none.mp hsel1 r hr
          simp only [he1, orBlank, Option.getD_some, sqlEq, Bool.not_eq_true] at hfalse ⊢
          exact hfalse
        have hcall := upsert_client_fresh_insert hwf.2.1 hsel1 hviol
        rw [hcall] at hrun
        obtain ⟨hr1, hdb1⟩ := UpsertResult.ok.inj hrun
        refine ⟨r1, ?_, ?_, rfl⟩
        · rw [← hdb1]
          show findByNameEmail (db.rows ++ [_]) c1 = some r1
          simp only [findByNameEmail]
          rw [find?_append_left_none _ _ _
            (fun x hx => by
              have := List.find?_eq_none.mp hsel1 x hx
              simpa [findByNameEmail, Bool.not_eq_true] using this)]
          rw [← hr1]
          simp [List.find?_cons, sqlEq, he1, orBlank]
        · rw [← hdb1, ← hr1]
          show findById (db.rows ++ [_]) db.nextId = _
          simp only [findById]
          rw [find?_append_left_none _ _ _
            (fun x hx => beq_eq_false_iff_ne.mpr (Nat.ne_of_lt (hwf.2.1 x hx)))]
          simp [List.find?_cons]
    obtain ⟨w, hsel2, hfid2, hid⟩ := key
    have hsel2c : findByNameEmail db1.rows c2 = some w := by
      rw [findByNameEmail_congr db1.rows hn he, hsel2]
    have hres := upsert_client_update_result hsel2c hfid2
    refine ⟨{ w with address := orBlank c2.address, phone := orBlank c2.phone },
      ⟨updateClientRow db1.rows w.id (orBlank c2.address) (orBlank c2.phone), db1.nextId⟩,
      hres, hid, rfl, ?_⟩
    simp [updateClientRow_eq_map]
  · intro db c hsel hviol
    simp [upsert_client, hsel, hviol]

/-- C8 witness: a concrete second call with identical name and the string email
updates the stored row in place: same id 1, the new address, and still one row. -/
theorem upsert_client_update_in_place_witness :
    upsert_client ⟨[⟨1, "bob", "a1", "b@x", ""⟩], 2⟩ ⟨"bob", some "a2", some "b@x", none⟩
      = UpsertResult.ok ⟨1, "bob", "a2", "b@x", ""⟩ ⟨[⟨1, "bob", "a2", "b@x", ""⟩], 2⟩ ∧
    (⟨1, "bob", "a2", "b@x", ""⟩ : ClientRow).id = (⟨1, "bob", "a1", "b@x", ""⟩ : ClientRow).id ∧
    (⟨1, "bob", "a2", "b@x", ""⟩ : ClientRow).address = orBlank (some "a2") ∧
    (⟨[⟨1, "bob", "a2", "b@x", ""⟩], 2⟩ : ClientDB).rows.length
      = (⟨[⟨1, "bob", "a1", "b@x", ""⟩], 2⟩ : ClientDB).rows.length := by
  obtain ⟨r2, db2, hok, hid, haddr, hlen⟩ :=
    upsert_client_update_in_place.1 ⟨[], 1⟩ ⟨[⟨1, "bob", "a1", "b@x", ""⟩], 2⟩
      ⟨"bob", some "a1", some "b@x", none⟩ ⟨"bob", some "a2", some "b@x", none⟩
      "b@x" ⟨1, "bob", "a1", "b@x", ""⟩ (by decide) rfl rfl rfl (by decide)
  have hconc : upsert_client ⟨[⟨1, "bob", "a1", "b@x", ""⟩], 2⟩
      ⟨"bob", some "a2", some "b@x", none⟩
      = UpsertResult.ok ⟨1, "bob", "a2", "b@x", ""⟩ ⟨[⟨1, "bob", "a2", "b@x", ""⟩], 2⟩ := by
    decide
  rw [hconc] at hok
  obtain ⟨hr2, hdb2⟩ := UpsertResult.ok.inj hok
  subst hr2
  subst hdb2
  exact ⟨hconc, hid, haddr, hlen⟩

/-! ### List indexing lemmas for the interleaving model -/

theorem get?_set_self {α : Type} {l : List α} {i : Nat} {a : α} (b : α)
    (h : l[i]? = some a) : (l.set i b)[i]? = some b := by
  induction l generalizing i with
  | nil => simp at h
  | cons x xs ih =>
    cases i with
    | zero => simp
    | succ n =>
      rw [List.set_cons_succ, List.getElem?_cons_succ]
      rw [List.getElem?_cons_succ] at h
      exact ih h

theorem get?_set_ne {α : Type} (l : List α) (i j : Nat) (b : α) (h : j ≠ i) :
    (l.set i b)[j]? = l[j]? := by
  induction l generalizing i j with
  | nil => rfl
  | cons x xs ih =>
    cases i with
    | zero =>
      cases j with
      | zero => exact absurd rfl h
      | succ m => simp [List.set_cons_zero]
    | succ n =>
      cases j with
      | zero => simp [List.set_cons_succ]
      | succ m =>
        rw [List.set_cons_succ, List.getElem?_cons_succ, List.getElem?_cons_succ]
        exact ih n m (fun hh => h (by rw [hh]))

theorem filterMap_set_none {α β : Type} {f : α → Option β} {l : List α} {i : Nat}
    {a : α} (b : α) (hget : l[i]? = some a) (ha : f a = none) (hb : f b = none) :
    (l.set i b).filterMap f = l.filterMap f := by
  induction l generalizing i with
  | nil => simp at hget
  | cons x xs ih =>
    cases i with
    | zero =>
      have hx : x = a := by simpa using hget
      subst hx
      show (b :: xs).filterMap f = (x :: xs).filterMap f
      simp [List.filterMap_cons, ha, hb]
    | succ n =>
      rw [List.getElem?_cons_succ] at hget
      show (x :: xs.set n b).filterMap f = (x :: xs).filterMap f
      rw [List.filterMap_cons, List.filterMap_cons]
      cases hfx : f x <;> simp [ih hget]

theorem filterMap_set_some {α β : Type} {f : α → Option β} {l : List α} {i : Nat}
    {a b : α} {v : β} (hget : l[i]? = some a) (ha : f a = none) (hb : f b = some v) :
    ((l.set i b).filterMap f).Perm (v :: l.filterMap f) := by
  induction l generalizing i with
  | nil => simp at hget
  | cons x xs ih =>
    cases i with
    | zero =>
      have hx : x = a := by simpa using hget
      subst hx
      show ((b :: xs).filterMap f).Perm (v :: (x :: xs).filterMap f)
      simp [List.filterMap_cons, ha, hb]
    | succ n =>
      rw [List.getElem?_cons_succ] at hget
      show ((x :: xs.set n b).filterMap f).Perm (v :: (x :: xs).filterMap f)
      rw [List.filterMap_cons, List.filterMap_cons]
      cases hfx : f x with
      | none => exact ih hget
      | some w => exact ((ih hget).cons w).trans (List.Perm.swap v w _)

theorem doneVals_set_eq {l : List Phase} {i : Nat} {a : Phase} (b : Phase)
    (hget : l[i]? = some a) (ha : doneVal a = none) (hb : doneVal b = none) :
    doneVals (l.set i b) = doneVals l := filterMap_set_none b hget ha hb

theorem numDone_set_eq {l : List Phase} {i : Nat} {a : Phase} (b : Phase)
    (hget : l[i]? = some a) (ha : doneVal a = none) (hb : doneVal b = none) :
    numDone (l.set i b) = numDone l := by
  simp [numDone, doneVals_set_eq b hget ha hb]

theorem doneVals_replicate (n : Nat) : doneVals (List.replicate n Phase.start) = [] := by
  induction n with
  | zero => rfl
  | succ n ih => exact ih

theorem get?_replicate_eq {n i : Nat} {a b : Phase}
    (h : (List.replicate n a)[i]? = some b) : b = a := by
  induction n generalizing i with
  | zero => simp at h
  | succ n ih =>
    cases i with
    | zero =>
      rw [List.replicate_succ, List.getElem?_cons_zero] at h
      exact (Option.some.inj h).symm
    | succ m =>
      rw [List.replicate_succ, List.getElem?_cons_succ] at h
      exact ih h

theorem doneVals_length_of_all_done {l : List Phase}
    (h : ∀ i, i < l.length → ∃ v, l[i]? = some (Phase.done v)) :
    (doneVals l).length = l.length := by
  induction l with
  | nil => rfl
  | cons x xs ih =>
    obtain ⟨v, hv⟩ := h 0 (Nat.succ_pos _)
    have hx : x = Phase.done v := by simpa using hv
    subst hx
    have hxs := ih (fun i hi => by
      obtain ⟨v2, hv2⟩ := h (i + 1) (Nat.succ_lt_succ hi)
      rw [List.getElem?_cons_succ] at hv2
      exact ⟨v2, hv2⟩)
    simp only [doneVals, List.filterMap_cons, doneVal] at hxs ⊢
    simp [hxs]

/-! ### Injectivity of the decimal rendering -/

theorem digitChar_toNat {d : Nat} (h : d < 10) : (digitChar d).toNat = 48 + d := by
  interval_cases d <;> decide

theorem digitsVal_append_digit (l : List Char) (c : Char) :
    digitsVal (l ++ [c]) = digitsVal l * 10 + (c.toNat - 48) := by
  simp [digitsVal, List.foldl_append]

theorem natChars_val {f n : Nat} (h : n < f) : digitsVal (natChars f n) = n := by
  induction f generalizing n with
  | zero => omega
  | succ f ih =>
    simp only [natChars]
    by_cases h10 : n < 10
    · rw [if_pos h10]
      show digitsVal ([] ++ [digitChar n]) = n
      rw [digitsVal_append_digit, digitChar_toNat h10]
      simp [digitsVal]
    · rw [if_neg h10]
      have hlt : n / 10 < n := Nat.div_lt_self (by omega) (by omega)
      rw [digitsVal_append_digit, ih (by omega), digitChar_toNat (Nat.mod_lt n (by omega))]
      omega

theorem natToString_injective : Function.Injective natToString := by
  intro m n h
  have hm : digitsVal (natChars (m + 1) m) = m := natChars_val (Nat.lt_succ_self m)
  have hn : digitsVal (natChars (n + 1) n) = n := natChars_val (Nat.lt_succ_self n)
  have hdata : natChars (m + 1) m = natChars (n + 1) n := congrArg String.data h
  rw [← hm, hdata, hn]

theorem intToString_nat_inj {a b : Nat}
    (h : intToString (a : Int) = intToString (b : Int)) : a = b := by
  have ha : intToString (a : Int) = natToString a := by
    simp [intToString]
  have hb : intToString (b : Int) = natToString b := by
    simp [intToString]
  rw [ha, hb] at h
  exact natToString_injective h

theorem range_map_intToString_nodup (n : Nat) :
    ((List.range n).map (fun (k : Nat) => intToString ((k : Int) + 1))).Nodup := by
  have h : ∀ x ∈ List.range n, ∀ y ∈ List.range n,
      intToString ((x : Int) + 1) = intToString ((y : Int) + 1) → x = y := by
    intro x _ y _ hxy
    have hxy2 : intToString ((x + 1 : Nat) : Int) = intToString ((y + 1 : Nat) : Int) := by
      push_cast
      exact hxy
    have := intToString_nat_inj hxy2
    omega
  exact List.Nodup.map_on h (List.nodup_range n)

/-! ### The invariant holds along every schedule -/

theorem stepTxn_inv {s s2 : ConcState} {i : Nat}
    (h : stepTxn s i = some s2) (hinv : ConcInv s) :
    ConcInv s2 ∧ s2.txns.length = s.txns.length := by
  obtain ⟨hrow, hact, hvals⟩ := hinv
  cases hget : s.txns[i]? with
  | none => simp [stepTxn, hget] at h
  | some ph =>
    cases ph with
    | start =>
      cases hr : s.row with
      | some v =>
        cases hh : s.holder with
        | some j => simp [stepTxn, hget, hr, hh] at h
        | none =>
          simp only [stepTxn, hget, hr, hh] at h
          injection h with h2
          subst h2
          have hnd := numDone_set_eq (Phase.locked v) hget rfl rfl
          have hvv : v = (numDone s.txns : Int) + 1 := by
            rw [hr] at hrow
            simpa using hrow
          refine ⟨⟨?_, ?_, ?_⟩, by simp⟩
          · show (some v : Option Int).getD 1 = (numDone (s.txns.set i (Phase.locked v)) : Int) + 1
            rw [Option.getD_some, hnd]
            exact hvv
          · intro j w hjw
            by_cases hji : j = i
            · subst hji
              rw [get?_set_self (Phase.locked v) hget] at hjw
              rcases hjw with hjw | hjw
              · have hwv : w = v := (Phase.locked.inj (Option.some.inj hjw)).symm
                subst hwv
                exact ⟨rfl, by rw [hnd]; exact hvv⟩
              · exact absurd (Option.some.inj hjw) (by simp)
            · rw [get?_set_ne _ _ _ _ hji] at hjw
              obtain ⟨hh2, -⟩ := hact j w hjw
              rw [hh] at hh2
              cases hh2
          · show (doneVals (s.txns.set i (Phase.locked v))).Perm _
            rw [doneVals_set_eq (Phase.locked v) hget rfl rfl, hnd]
            exact hvals
      | none =>
        simp only [stepTxn, hget, hr] at h
        injection h with h2
        subst h2
        have hnd := numDone_set_eq Phase.needInsert hget rfl rfl
        refine ⟨⟨?_, ?_, ?_⟩, by simp⟩
        · show (none : Option Int).getD 1 = (numDone (s.txns.set i Phase.needInsert) : Int) + 1
          rw [hnd]
          rw [hr] at hrow
          exact hrow
        · intro j w hjw
          by_cases hji : j = i
          · subst hji
            rw [get?_set_self Phase.needInsert hget] at hjw
            rcases hjw with hjw | hjw <;> exact absurd (Option.some.inj hjw) (by simp)
          · rw [get?_set_ne _ _ _ _ hji] at hjw
            obtain ⟨hh2, hw⟩ := hact j w hjw
            exact ⟨hh2, by rw [hnd]; exact hw⟩
        · show (doneVals (s.txns.set i Phase.needInsert)).Perm _
          rw [doneVals_set_eq Phase.needInsert hget rfl rfl, hnd]
          exact hvals
    | needInsert =>
      cases hr : s.row with
      | some v =>
        simp only [stepTxn, hget, hr] at h
        injection h with h2
        subst h2
        have hnd := numDone_set_eq Phase.failed hget rfl rfl
        refine ⟨⟨?_, ?_, ?_⟩, by simp⟩
        · show (some v : Option Int).getD 1 = (numDone (s.txns.set i Phase.failed) : Int) + 1
          rw [hnd]
          rw [hr] at hrow
          exact hrow
        · intro j w hjw
          by_cases hji : j = i
          · subst hji
            rw [get?_set_self Phase.failed hget] at hjw
            rcases hjw with hjw | hjw <;> exact absurd (Option.some.inj hjw) (by simp)
          · rw [get?_set_ne _ _ _ _ hji] at hjw
            obtain ⟨hh2, hw⟩ := hact j w hjw
            exact ⟨hh2, by rw [hnd]; exact hw⟩
        · show (doneVals (s.txns.set i Phase.failed)).Perm _
          rw [doneVals_set_eq Phase.failed hget rfl rfl, hnd]
          exact hvals
      | none =>
        cases hh : s.holder with
        | some j => simp [stepTxn, hget, hr, hh] at h
        | none =>
          simp only [stepTxn, hget, hr, hh] at h
          injection h with h2
          subst h2
          have hnd := numDone_set_eq (Phase.locked 1) hget rfl rfl
          have hvv : (1 : Int) = (numDone s.txns : Int) + 1 := by
            rw [hr] at hrow
            simpa using hrow
          refine ⟨⟨?_, ?_, ?_⟩, by simp⟩
          · show (none : Option Int).getD 1 = (numDone (s.txns.set i (Phase.locked 1)) : Int) + 1
            rw [hnd]
            rw [hr] at hrow
            exact hrow
          · intro j w hjw
            by_cases hji : j = i
            · subst hji
              rw [get?_set_self (Phase.locked 1) hget] at hjw
              rcases hjw with hjw | hjw
              · have hwv : w = 1 := (Phase.locked.inj (Option.some.inj hjw)).symm
                subst hwv
                exact ⟨rfl, by rw [hnd]; exact hvv⟩
              · exact absurd (Option.some.inj hjw) (by simp)
            · rw [get?_set_ne _ _ _ _ hji] at hjw
              obtain ⟨hh2, -⟩ := hact j w hjw
              rw [hh] at hh2
              cases hh2
          · show (doneVals (s.txns.set i (Phase.locked 1))).Perm _
            rw [doneVals_set_eq (Phase.locked 1) hget rfl rfl, hnd]
            exact hvals
    | locked v =>
      simp only [stepTxn, hget] at h
      injection h with h2
      subst h2
      obtain ⟨hhold, hveq⟩ := hact i v (Or.inl hget)
      have hnd := numDone_set_eq (Phase.updated v) hget rfl rfl
      refine ⟨⟨?_, ?_, ?_⟩, by simp⟩
      · show s.row.getD 1 = (numDone (s.txns.set i (Phase.updated v)) : Int) + 1
        rw [hnd]
        exact hrow
      · intro j w hjw
        by_cases hji : j = i
        · subst hji
          rw [get?_set_self (Phase.updated v) hget] at hjw
          rcases hjw with hjw | hjw
          · exact absurd (Option.some.inj hjw) (by simp)
          · have hwv : w = v := (Phase.updated.inj (Option.some.inj hjw)).symm
            subst hwv
            exact ⟨hhold, by rw [hnd]; exact hveq⟩
        · rw [get?_set_ne _ _ _ _ hji] at hjw
          obtain ⟨hh2, hw⟩ := hact j w hjw
          exact ⟨hh2, by rw [hnd]; exact hw⟩
      · show (doneVals (s.txns.set i (Phase.updated v))).Perm _
        rw [doneVals_set_eq (Phase.updated v) hget rfl rfl, hnd]
        exact hvals
    | updated v =>
      simp only [stepTxn, hget] at h
      injection h with h2
      subst h2
      obtain ⟨hhold, hveq⟩ := hact i v (Or.inr hget)
      have hperm : (doneVals (s.txns.set i (Phase.done v))).Perm (v :: doneVals s.txns) :=
        filterMap_set_some hget rfl rfl
      have hnd : numDone (s.txns.set i (Phase.done v)) = numDone s.txns + 1 := by
        have hlen := hperm.length_eq
        simpa [numDone, doneVals] using hlen
      refine ⟨⟨?_, ?_, ?_⟩, by simp⟩
      · show (some (v + 1) : Option Int).getD 1
          = (numDone (s.txns.set i (Phase.done v)) : Int) + 1
        rw [Option.getD_some, hnd, hveq]
        push_cast
        ring
      · intro j w hjw
        by_cases hji : j = i
        · subst hji
          rw [get?_set_self (Phase.done v) hget] at hjw
          rcases hjw with hjw | hjw <;> exact absurd (Option.some.inj hjw) (by simp)
        · rw [get?_set_ne _ _ _ _ hji] at hjw
          obtain ⟨hh2, -⟩ := hact j w hjw
          rw [hhold] at hh2
          exact absurd (Option.some.inj hh2).symm hji
      · show (doneVals (s.txns.set i (Phase.done v))).Perm _
        rw [hnd]
        refine hperm.trans ?_
        refine (hvals.cons v).trans ?_
        rw [hveq, List.range_succ, List.map_append]
        simp only [List.map_cons, List.map_nil]
        exact (List.perm_append_singleton _ _).symm
    | done v => simp [stepTxn, hget] at h
    | failed => simp [stepTxn, hget] at h

theorem runSched_inv {tr : List Nat} {s s2 : ConcState}
    (hrun : runSched s tr = some s2) (hinv : ConcInv s) :
    ConcInv s2 ∧ s2.txns.length = s.txns.length := by
  induction tr generalizing s with
  | nil =>
    have h2 : s = s2 := Option.some.inj hrun
    subst h2
    exact ⟨hinv, rfl⟩
  | cons j tr ih =>
    simp only [runSched] at hrun
    cases hstep : stepTxn s j with
    | none =>
      rw [hstep] at hrun
      exact Option.noConfusion hrun
    | some s1 =>
      rw [hstep] at hrun
      obtain ⟨h1, hl1⟩ := stepTxn_inv hstep hinv
      obtain ⟨h2, hl2⟩ := ih hrun h1
      exact ⟨h2, hl2.trans hl1⟩

theorem initConc_inv (n : Nat) : ConcInv (initConc n) := by
  refine ⟨?_, ?_, ?_⟩
  · show (none : Option Int).getD 1 = (numDone (List.replicate n Phase.start) : Int) + 1
    simp [numDone, doneVals_replicate]
  · intro j w hjw
    rcases hjw with hjw | hjw <;> exact Phase.noConfusion (get?_replicate_eq hjw)
  · show (doneVals (List.replicate n Phase.start)).Perm _
    simp [initConc, numDone, doneVals_replicate]

/-- C4: in the interleaving model of take_next_number, any schedule of N requests on
a fresh document type in which every request commits successfully yields underlying
integers that are exactly the set 1..N (no duplicates, no gaps), and the returned
formatted numbers, rendered from those integers with the default empty prefix and
zero padding of the created row, are N distinct strings; this covers schedules that
race on the first-time creation of the counter row. -/
theorem concurrent_allocations_yield_range (n : Nat) (tr : List Nat) (s : ConcState)
    (hrun : runSched (initConc n) tr = some s)
    (hdone : ∀ i, i < n → ∃ v, s.txns[i]? = some (Phase.done v)) :
    (doneVals s.txns).Perm ((List.range n).map (fun (k : Nat) => ((k : Int) + 1))) ∧
    ((doneVals s.txns).map intToString).Perm
      ((List.range n).map (fun (k : Nat) => intToString ((k : Int) + 1))) ∧
    ((doneVals s.txns).map intToString).Nodup ∧
    (∀ v ∈ doneVals s.txns, formatted_number v "" 0 = some (intToString v)) := by
  obtain ⟨hinv, hlen⟩ := runSched_inv hrun (initConc_inv n)
  have hlen2 : s.txns.length = n := by simpa [initConc] using hlen
  have hcount : (doneVals s.txns).length = s.txns.length :=
    doneVals_length_of_all_done (fun i hi => hdone i (hlen2 ▸ hi))
  have hnum : numDone s.txns = n := by
    show (doneVals s.txns).length = n
    rw [hcount, hlen2]
  have hperm : (doneVals s.txns).Perm
      ((List.range n).map (fun (k : Nat) => ((k : Int) + 1))) := by
    have hv := hinv.vals
    rw [hnum] at hv
    exact hv
  have hmap : ((doneVals s.txns).map intToString).Perm
      ((List.range n).map (fun (k : Nat) => intToString ((k : Int) + 1))) := by
    have h2 := hperm.map intToString
    rw [List.map_map] at h2
    exact h2
  exact ⟨hperm, hmap, hmap.nodup_iff.mpr (range_map_intToString_nodup n),
    fun v _ => rfl⟩

/-- C4 witness: two requests racing on the fresh type, the second blocked until the
first commits; they return the integers 1 and 2, formatted "1" and "2". -/
theorem concurrent_allocations_yield_range_witness :
    (doneVals [Phase.done 1, Phase.done 2]).Perm
      ((List.range 2).map (fun (k : Nat) => ((k : Int) + 1))) ∧
    ((doneVals [Phase.done 1, Phase.done 2]).map intToString).Perm
      ((List.range 2).map (fun (k : Nat) => intToString ((k : Int) + 1))) ∧
    ((doneVals [Phase.done 1, Phase.done 2]).map intToString).Nodup ∧
    formatted_number 1 "" 0 = some (intToString 1) := by
  have h := concurrent_allocations_yield_range 2 [0, 0, 0, 0, 1, 1, 1]
    ⟨some 3, none, [Phase.done 1, Phase.done 2]⟩ (by decide)
    (by
      intro i hi
      interval_cases i
      · exact ⟨1, rfl⟩
      · exact ⟨2, rfl⟩)
  exact ⟨h.1, h.2.1, h.2.2.1, h.2.2.2 1 (by decide)⟩

end Afcotec
